import Mathlib

/-!
Verification of the YAGOO agent-directory query engine (`src/index.ts`).

The catalog module (`data.ts`) is an external collaborator: the `Agent`
record shape and the ordered category-label mapping are modelled as Lean
structures / association lists, and every theorem quantifies over the
catalog.  All operations below are shallow embeddings of the TypeScript
handlers in `src/index.ts`.
-/

namespace Yagoo

/-- Does `needle` occur contiguously inside the second list? -/
def substrList (needle : List Char) : List Char → Bool
  | [] => needle.isEmpty
  | c :: rest => needle.isPrefixOf (c :: rest) || substrList needle rest

/-- JS `a.includes(b)` substring test: `containsSub a b` holds when `b`
occurs contiguously inside `a`. -/
def containsSub (s sub : String) : Bool :=
  substrList sub.data s.data

/-- Optional MCP connection configuration (`mcp_config` in `data.ts`). -/
structure McpConfig where
  command : String
  args : List String
  env : Option (List (String × String))
  description : Option String
deriving DecidableEq

/-- One catalog record, after the data model of `data.ts` / spec §3. -/
structure Agent where
  slug : String
  name : String
  tagline : String
  description : String
  url : String
  primary_category : String
  secondary_categories : List String
  pricing_model : String
  pricing_details : String
  autonomy_level : String
  open_source : Bool
  repo_url : Option String
  mcp_support : Bool
  mcp_config : Option McpConfig
  tags : List String
  capabilities : List String
  best_for : List String
  limitations : List String
  not_ideal_for : List String
  reliability_notes : String
  access_methods : List String
  integrates_with : List String
deriving DecidableEq

/-- The ordered category-label mapping (`CATEGORY_LABELS`), as an
association list whose order is the canonical listing order. -/
abbrev Labels := List (String × String)

/-- `CATEGORY_LABELS[key]?.toLowerCase() || ''` from `scoreAgent`. -/
def categoryLabelLower (labels : Labels) (key : String) : String :=
  match labels.find? (fun p => p.1 == key) with
  | some p => p.2.toLower
  | none => ""

/-- The words derived from the query in `scoreAgent`:
`q.split(/\s+/).filter(w => w.length > 2)` on the lowercased query. -/
def queryWords (query : String) : List String :=
  (query.toLower.split Char.isWhitespace).filter (fun w => 2 < w.length)

/-- Shallow embedding of `scoreAgent` (index.ts lines 22-72): each
TypeScript `for`-loop with `score +=` becomes a `List.foldl` over the
same list with the same conditional increments, in the same order. -/
def scoreAgent (labels : Labels) (agent : Agent) (query : String) : Int :=
  let q := query.toLower
  let words := queryWords query
  let s0 : Int := 0
  let s1 := if containsSub agent.name.toLower q then s0 + 50 else s0
  let s2 := if containsSub agent.tagline.toLower q then s1 + 30 else s1
  let s3 := agent.tags.foldl (fun s tag =>
    let s := if containsSub q tag || containsSub tag q then s + 20 else s
    words.foldl (fun s w => if containsSub tag w then s + 10 else s) s) s2
  let s4 := agent.capabilities.foldl (fun s cap =>
    let capLower := cap.toLower
    let s := if containsSub capLower q then s + 15 else s
    words.foldl (fun s w => if containsSub capLower w then s + 5 else s) s) s3
  let s5 := agent.best_for.foldl (fun s bf =>
    let bfLower := bf.toLower
    let s := if containsSub bfLower q then s + 25 else s
    words.foldl (fun s w => if containsSub bfLower w then s + 8 else s) s) s4
  let s6 := agent.not_ideal_for.foldl (fun s nif =>
    let nifLower := nif.toLower
    words.foldl (fun s w => if containsSub nifLower w then s - 5 else s) s) s5
  let categoryLabel := categoryLabelLower labels agent.primary_category
  words.foldl (fun s w => if containsSub categoryLabel w then s + 10 else s) s6

/-- Number of query words contained in `t`, as an integer. -/
def wordHits (t : String) (words : List String) : Int :=
  ((words.filter (fun w => containsSub t w)).length : Int)

/-- Spec-side scoring formula, written after the additive-weights table of
spec §4.1 (claim C1): an explicit sum of independent signal contributions. -/
def specScore (labels : Labels) (agent : Agent) (query : String) : Int :=
  let q := query.toLower
  let words := queryWords query
  (if containsSub agent.name.toLower q then (50 : Int) else 0)
  + (if containsSub agent.tagline.toLower q then (30 : Int) else 0)
  + (agent.tags.map (fun tag =>
      (if containsSub q tag || containsSub tag q then (20 : Int) else 0)
      + 10 * wordHits tag words)).sum
  + (agent.capabilities.map (fun cap =>
      (if containsSub cap.toLower q then (15 : Int) else 0)
      + 5 * wordHits cap.toLower words)).sum
  + (agent.best_for.map (fun bf =>
      (if containsSub bf.toLower q then (25 : Int) else 0)
      + 8 * wordHits bf.toLower words)).sum
  + (agent.not_ideal_for.map (fun nif =>
      (-5) * wordHits nif.toLower words)).sum
  + 10 * wordHits (categoryLabelLower labels agent.primary_category) words

/-! ### Search handler: filter, score, rank (index.ts lines 213-246) -/

/-- Category test of the search handler:
`a.primary_category === cat || a.secondary_categories.includes(cat)`. -/
def categoryMatches (cat : String) (a : Agent) : Bool :=
  a.primary_category == cat || a.secondary_categories.contains cat

/-- The two optional filters of the `yagoo_search` handler
(index.ts lines 214-228), applied in source order. -/
def applyFilters (catalog : List Agent) (category? pricing? : Option String) :
    List Agent :=
  let f1 := match category? with
    | some cat => catalog.filter (categoryMatches cat)
    | none => catalog
  match pricing? with
  | some p => f1.filter (fun a => a.pricing_model == p)
  | none => f1

/-- `filtered.map(agent => ({agent, score})).filter(item => item.score > 0)`
(index.ts lines 231-234). -/
def scoredItems (labels : Labels) (subset : List Agent) (query : String) :
    List (Agent × Int) :=
  ((subset.map (fun a => (a, scoreAgent labels a query))).filter
    (fun p => 0 < p.2))

/-- Descending-score order used by `scored.sort((a, b) => b.score - a.score)`. -/
def scoreGe (p q : Agent × Int) : Prop := q.2 ≤ p.2

instance : DecidableRel scoreGe := fun p q =>
  inferInstanceAs (Decidable (q.2 ≤ p.2))

instance : IsTotal (Agent × Int) scoreGe :=
  ⟨fun p q => (le_total q.2 p.2).elim Or.inl Or.inr⟩

instance : IsTrans (Agent × Int) scoreGe :=
  ⟨fun _ _ _ h1 h2 => le_trans h2 h1⟩

/-- Rank step of the search handler (index.ts lines 236-237): stable sort
descending by score (JS `Array.sort` is stable), then `slice(0, limit)`. -/
def rank (labels : Labels) (subset : List Agent) (query : String)
    (limit : Nat) : List (Agent × Int) :=
  (List.insertionSort scoreGe (scoredItems labels subset query)).take limit

/-- Observable outcome of `yagoo_search`: a zero-results message or a
ranked list. -/
inductive SearchResult where
  | noResults
  | results (items : List (Agent × Int))
deriving DecidableEq

/-- The `yagoo_search` handler (index.ts lines 213-246, up to rendering). -/
def yagooSearch (labels : Labels) (catalog : List Agent) (query : String)
    (category? pricing? : Option String) (limit : Nat) : SearchResult :=
  let items := rank labels (applyFilters catalog category? pricing?) query limit
  if items.isEmpty then .noResults else .results items

/-! ### Lookup by slug (`yagoo_get_agent`, index.ts lines 298-318) -/

/-- Suggestion predicate on a miss:
`a.slug.includes(slug) || a.name.toLowerCase().includes(slug.toLowerCase())`. -/
def suggestionMatches (slug : String) (a : Agent) : Bool :=
  containsSub a.slug slug || containsSub a.name.toLower slug.toLower

/-- Observable outcome of `yagoo_get_agent`. -/
inductive GetAgentResult where
  | found (agent : Agent)
  | notFound (suggestions : List String)
deriving DecidableEq

/-- The `yagoo_get_agent` handler: exact `find` on slug; on a miss, the
first three catalog agents matching `suggestionMatches`, as slugs. -/
def yagooGetAgent (catalog : List Agent) (slug : String) : GetAgentResult :=
  match catalog.find? (fun a => a.slug == slug) with
  | some agent => .found agent
  | none =>
      .notFound
        (((catalog.filter (suggestionMatches slug)).take 3).map (fun a => a.slug))

/-! ### Category listing (`yagoo_list_categories`, index.ts lines 338-363) -/

/-- One step of building the `categoryCounts` record:
`categoryCounts[key] = (categoryCounts[key] || 0) + 1`. -/
def bumpCount : List (String × Nat) → String → List (String × Nat)
  | [], k => [(k, 1)]
  | (k', n) :: rest, k =>
      if k' == k then (k', n + 1) :: rest else (k', n) :: bumpCount rest k

/-- The `categoryCounts` record built by the handler's loop over the
catalog (index.ts lines 339-343). -/
def categoryCounts (catalog : List Agent) : List (String × Nat) :=
  catalog.foldl (fun m a => bumpCount m a.primary_category) []

/-- `categoryCounts[slug] || 0` (index.ts line 353). -/
def lookupCount (m : List (String × Nat)) (k : String) : Nat :=
  match m.find? (fun p => p.1 == k) with
  | some p => p.2
  | none => 0

/-- The listing produced by `yagoo_list_categories`: one
`(key, label, count)` entry per `CATEGORY_LABELS` entry, in mapping
iteration order (index.ts lines 352-355). -/
def listCategories (labels : Labels) (catalog : List Agent) :
    List (String × String × Nat) :=
  labels.map (fun p => (p.1, p.2, lookupCount (categoryCounts catalog) p.1))

/-! ### Comparison (`yagoo_compare`, index.ts lines 386-475) -/

/-- Observable outcome of `yagoo_compare`: the unresolved-slugs message,
the minimum-count message, or a comparison over the resolved agents. -/
inductive CompareResult where
  | notFound (slugs : List String)
  | needTwo
  | comparison (agents : List Agent)
deriving DecidableEq

/-- The resolution loop of the compare handler (index.ts lines 387-397):
each slug is appended to the resolved list or to the not-found list. -/
def resolveSlugs (catalog : List Agent) (slugs : List String) :
    List Agent × List String :=
  slugs.foldl
    (fun acc slug =>
      match catalog.find? (fun a => a.slug == slug) with
      | some agent => (acc.1 ++ [agent], acc.2)
      | none => (acc.1, acc.2 ++ [slug]))
    ([], [])

/-- The `yagoo_compare` handler's branching (index.ts lines 399-415). -/
def yagooCompare (catalog : List Agent) (slugs : List String) : CompareResult :=
  let resolved := resolveSlugs catalog slugs
  if resolved.2.isEmpty then
    if resolved.1.length < 2 then .needTwo else .comparison resolved.1
  else
    .notFound resolved.2

/-- Budget pick predicate (index.ts line 458). -/
def budgetQual (a : Agent) : Bool :=
  a.pricing_model == "free" || a.pricing_model == "open_source"
    || a.pricing_model == "freemium"

/-- Autonomy pick predicate (index.ts line 459). -/
def autonomousQual (a : Agent) : Bool :=
  a.autonomy_level == "fully_autonomous"

/-- The three quick-recommendation picks (index.ts lines 458-460):
`agents.find(...)` for budget, autonomy, and MCP support. -/
def quickRecommendations (agents : List Agent) :
    Option Agent × Option Agent × Option Agent :=
  (agents.find? budgetQual, agents.find? autonomousQual,
    agents.find? (fun a => a.mcp_support))

/-! ### MCP configuration rendering (index.ts lines 92-105 and 495-521) -/

/-- A JSON value as rendered inside the connection block. -/
inductive JsonVal where
  | str (s : String)
  | arr (xs : List String)
  | obj (fields : List (String × String))
deriving DecidableEq

/-- The object passed to `JSON.stringify`:
`{command, args, ...(cfg.env && {env: cfg.env})}` — the `env` field is
spread in only when present. -/
def mcpConfigJson (cfg : McpConfig) : List (String × JsonVal) :=
  [("command", .str cfg.command), ("args", .arr cfg.args)]
    ++ (match cfg.env with
        | some e => [("env", .obj e)]
        | none => [])

/-- The configuration block of `formatAgentDetail` (index.ts lines 92-105):
present exactly when `agent.mcp_support && agent.mcp_config`. -/
def formatAgentDetailConfig (agent : Agent) : Option (List (String × JsonVal)) :=
  if agent.mcp_support then
    match agent.mcp_config with
    | some cfg => some (mcpConfigJson cfg)
    | none => none
  else none

/-- The `yagoo_list_mcp` handler (index.ts lines 495-521):
`AGENTS.filter(a => a.mcp_support && a.mcp_config)`, then one connection
block per surviving agent, in catalog order. -/
def listMcpBlocks (catalog : List Agent) :
    List (Agent × List (String × JsonVal)) :=
  catalog.filterMap (fun a =>
    match a.mcp_support, a.mcp_config with
    | true, some cfg => some (a, mcpConfigJson cfg)
    | _, _ => none)

/-! ### Helper lemmas -/

/-- A fold that conditionally adds a fixed weight `k` per matching element
adds `k` times the number of matches. -/
theorem foldl_ite_add {α : Type} (p : α → Bool) (k : Int) (l : List α)
    (init : Int) :
    l.foldl (fun s x => if p x then s + k else s) init
      = init + k * ((l.filter p).length : Int) := by
  induction l generalizing init with
  | nil => simp
  | cons a l ih =>
      by_cases h : p a
      · simp only [List.foldl_cons, List.filter_cons, h, if_pos, ih,
          List.length_cons]
        push_cast
        ring
      · simp only [List.foldl_cons, List.filter_cons, h, if_neg,
          Bool.false_eq_true, ih]
        simp [h]

/-- A fold whose step adds `g x` to the accumulator computes
`init` plus the sum of `g` over the list. -/
theorem foldl_step_add {α : Type} (g : α → Int) (step : Int → α → Int)
    (hstep : ∀ s x, step s x = s + g x) (l : List α) (init : Int) :
    l.foldl step init = init + (l.map g).sum := by
  induction l generalizing init with
  | nil => simp
  | cons a l ih => simp [List.foldl_cons, hstep, ih, add_assoc]

/-- A fold that conditionally subtracts a fixed weight `k` per matching
element subtracts `k` times the number of matches. -/
theorem foldl_ite_sub {α : Type} (p : α → Bool) (k : Int) (l : List α)
    (init : Int) :
    l.foldl (fun s x => if p x then s - k else s) init
      = init - k * ((l.filter p).length : Int) := by
  induction l generalizing init with
  | nil => simp
  | cons a l ih =>
      by_cases h : p a
      · simp only [List.foldl_cons, List.filter_cons, h, if_pos, ih,
          List.length_cons]
        push_cast
        ring
      · simp only [List.foldl_cons, List.filter_cons, h, if_neg,
          Bool.false_eq_true, ih]
        simp [h]

/-- C1: `scoreAgent` computes exactly the additive sum of the spec's
weight table: +50 name, +30 tagline, +20 per two-way tag substring match
plus +10 per (tag, word) hit, +15/+5 per capability, +25/+8 per best-for
entry, −5 per (not-ideal-for, word) hit, and +10 per word in the primary
category's display label, with all matching terms contributing and no
early exit. -/
theorem scoreAgent_eq_specScore (labels : Labels) (agent : Agent)
    (query : String) :
    scoreAgent labels agent query = specScore labels agent query := by
  unfold scoreAgent specScore
  dsimp only
  have htag : ∀ (s : Int) (tag : String),
      (queryWords query).foldl
          (fun s w => if containsSub tag w then s + 10 else s)
          (if containsSub query.toLower tag || containsSub tag query.toLower
            then s + 20 else s)
        = s + ((if containsSub query.toLower tag
                  || containsSub tag query.toLower then (20 : Int) else 0)
            + 10 * wordHits tag (queryWords query)) := by
    intro s tag
    rw [foldl_ite_add]
    unfold wordHits
    split <;> ring
  have hcap : ∀ (s : Int) (cap : String),
      (queryWords query).foldl
          (fun s w => if containsSub cap.toLower w then s + 5 else s)
          (if containsSub cap.toLower query.toLower then s + 15 else s)
        = s + ((if containsSub cap.toLower query.toLower then (15 : Int) else 0)
            + 5 * wordHits cap.toLower (queryWords query)) := by
    intro s cap
    rw [foldl_ite_add]
    unfold wordHits
    split <;> ring
  have hbf : ∀ (s : Int) (bf : String),
      (queryWords query).foldl
          (fun s w => if containsSub bf.toLower w then s + 8 else s)
          (if containsSub bf.toLower query.toLower then s + 25 else s)
        = s + ((if containsSub bf.toLower query.toLower then (25 : Int) else 0)
            + 8 * wordHits bf.toLower (queryWords query)) := by
    intro s bf
    rw [foldl_ite_add]
    unfold wordHits
    split <;> ring
  have hnif : ∀ (s : Int) (nif : String),
      (queryWords query).foldl
          (fun s w => if containsSub nif.toLower w then s - 5 else s) s
        = s + ((-5) * wordHits nif.toLower (queryWords query)) := by
    intro s nif
    rw [foldl_ite_sub]
    unfold wordHits
    ring
  rw [foldl_step_add _ _ htag, foldl_step_add _ _ hcap,
    foldl_step_add _ _ hbf, foldl_step_add _ _ hnif, foldl_ite_add]
  unfold wordHits
  split_ifs <;> ring

/-- Filtering a list twice by the same predicate equals filtering once. -/
theorem filter_idem {α : Type} (p : α → Bool) (l : List α) :
    (l.filter p).filter p = l.filter p := by
  induction l with
  | nil => rfl
  | cons a l ih =>
      by_cases h : p a
      · simp [List.filter_cons, h, ih]
      · simp [List.filter_cons, h, ih]

/-- C4: the search filter keeps exactly the agents matching the given
category (primary or secondary) and the given pricing model, the two
filters compose by logical AND, and an unmatched value just narrows the
subset (possibly to empty) — the function is total, never an error. -/
theorem applyFilters_spec (catalog : List Agent)
    (category? pricing? : Option String) :
    applyFilters catalog category? pricing?
      = catalog.filter (fun a =>
          (match category? with
            | some c => categoryMatches c a
            | none => true)
          && (match pricing? with
            | some p => a.pricing_model == p
            | none => true))
    ∧ ∀ a : Agent,
        a ∈ applyFilters catalog category? pricing?
          ↔ a ∈ catalog
            ∧ (∀ c, category? = some c →
                a.primary_category = c ∨ c ∈ a.secondary_categories)
            ∧ (∀ p, pricing? = some p → a.pricing_model = p) := by
  constructor
  · cases category? <;> cases pricing? <;>
      simp [applyFilters, List.filter_filter, Bool.and_comm]
  · intro a
    cases category? <;> cases pricing? <;>
      simp [applyFilters, List.mem_filter, categoryMatches, and_assoc]
    tauto

/-- C8: filtering is idempotent — applying the search filter twice with
the same category and pricing parameters returns the same subset, in the
same order, as applying it once. -/
theorem applyFilters_idempotent (catalog : List Agent)
    (category? pricing? : Option String) :
    applyFilters (applyFilters catalog category? pricing?) category? pricing?
      = applyFilters catalog category? pricing? := by
  cases category? <;> cases pricing? <;>
    simp [applyFilters, List.filter_filter, filter_idem, Bool.and_comm,
      Bool.and_left_comm, Bool.and_assoc, Bool.and_self_left]

/-- Inserting an item into a list ordered by score leaves the subsequence
of any fixed score `s` unchanged, except that an item of score `s` itself
lands at the front of its tie class. -/
theorem filter_orderedInsert (s : Int) (a : Agent × Int)
    (l : List (Agent × Int)) :
    (List.orderedInsert scoreGe a l).filter (fun p => p.2 == s)
      = if a.2 = s then a :: l.filter (fun p => p.2 == s)
        else l.filter (fun p => p.2 == s) := by
  induction l with
  | nil =>
      by_cases h : a.2 = s <;> simp [List.orderedInsert, h]
  | cons b l ih =>
      by_cases hab : scoreGe a b
      · by_cases h : a.2 = s <;>
          simp [List.orderedInsert, hab, List.filter_cons, h]
      · have hb : a.2 < b.2 := lt_of_not_le hab
        by_cases h : a.2 = s
        · have hbs : ¬ b.2 = s := by omega
          simp [List.orderedInsert, hab, List.filter_cons, hbs, ih, h]
        · by_cases hbs : b.2 = s <;>
            simp [List.orderedInsert, hab, List.filter_cons, hbs, ih, h]

/-- The stable sort by descending score preserves, for every score value,
the relative order of the tied items. -/
theorem filter_insertionSort (s : Int) (l : List (Agent × Int)) :
    (List.insertionSort scoreGe l).filter (fun p => p.2 == s)
      = l.filter (fun p => p.2 == s) := by
  induction l with
  | nil => rfl
  | cons a l ih =>
      by_cases h : a.2 = s <;>
        simp [List.insertionSort, filter_orderedInsert, h, List.filter_cons, ih]

/-- C2: every ranked entry has a strictly positive score; the ranked list
is sorted in non-increasing score order; ties keep catalog iteration
order (for each score value, the ranked tie class is a prefix of the
scored/filtered tie class); and the result has at most `limit` and at
most `|subset|` entries.  An empty result is an ordinary value of the
function, not an error. -/
theorem rank_spec (labels : Labels) (subset : List Agent) (query : String)
    (limit : Nat) :
    (∀ p ∈ rank labels subset query limit, 0 < p.2)
    ∧ List.Pairwise (fun p q : Agent × Int => q.2 ≤ p.2)
        (rank labels subset query limit)
    ∧ (∀ s : Int, ∃ t,
        (scoredItems labels subset query).filter (fun p => p.2 == s)
          = (rank labels subset query limit).filter (fun p => p.2 == s) ++ t)
    ∧ (rank labels subset query limit).length ≤ limit
    ∧ (rank labels subset query limit).length ≤ subset.length := by
  refine ⟨?_, ?_, ?_, ?_, ?_⟩
  · intro p hp
    have h1 : p ∈ List.insertionSort scoreGe (scoredItems labels subset query) :=
      List.mem_of_mem_take hp
    have h2 : p ∈ scoredItems labels subset query :=
      (List.mem_insertionSort scoreGe).1 h1
    have h3 := List.mem_filter.1 h2
    simpa using h3.2
  · exact List.Pairwise.sublist (List.take_sublist _ _)
      (List.sorted_insertionSort scoreGe (scoredItems labels subset query))
  · intro s
    refine ⟨((List.insertionSort scoreGe
        (scoredItems labels subset query)).drop limit).filter
          (fun p => p.2 == s), ?_⟩
    rw [← filter_insertionSort s (scoredItems labels subset query)]
    conv_lhs =>
      rw [← List.take_append_drop limit
        (List.insertionSort scoreGe (scoredItems labels subset query))]
    rw [List.filter_append]
    rfl
  · simp [rank] 
  · have h1 : (rank labels subset query limit).length
        ≤ (List.insertionSort scoreGe (scoredItems labels subset query)).length :=
      List.Sublist.length_le (List.take_sublist _ _)
    have h2 : (List.insertionSort scoreGe (scoredItems labels subset query)).length
        = (scoredItems labels subset query).length :=
      List.length_insertionSort scoreGe _
    have h3 : (scoredItems labels subset query).length ≤ subset.length := by
      have := List.length_filter_le (fun p : Agent × Int => 0 < p.2)
        (subset.map (fun a => (a, scoreAgent labels a query)))
      simpa [scoredItems] using this
    omega

/-- Incrementing the count record for key `k2` raises the looked-up count
of `k` by one exactly when `k2 = k`. -/
theorem lookupCount_bumpCount (m : List (String × Nat)) (k2 k : String) :
    lookupCount (bumpCount m k2) k
      = lookupCount m k + (if k2 = k then 1 else 0) := by
  induction m with
  | nil => by_cases h : k2 = k <;> simp [bumpCount, lookupCount, h]
  | cons a m ih =>
      obtain ⟨ka, n⟩ := a
      by_cases h1 : ka = k2 <;> by_cases h2 : ka = k <;>
        by_cases h3 : k2 = k <;>
        simp_all [bumpCount, lookupCount, List.find?_cons]

/-- The count record built by folding over the catalog: the looked-up
count of `k` is the number of agents whose primary category is `k`. -/
theorem lookupCount_foldl (l : List Agent) (m : List (String × Nat))
    (k : String) :
    lookupCount (l.foldl (fun m a => bumpCount m a.primary_category) m) k
      = lookupCount m k
        + (l.filter (fun a => a.primary_category == k)).length := by
  induction l generalizing m with
  | nil => simp
  | cons a l ih =>
      by_cases h : a.primary_category = k <;>
        simp [List.foldl_cons, List.filter_cons, h, ih,
          lookupCount_bumpCount]
      omega

/-- `categoryCounts` lookup equals the primary-category filter count. -/
theorem categoryCounts_lookup (catalog : List Agent) (k : String) :
    lookupCount (categoryCounts catalog) k
      = (catalog.filter (fun a => a.primary_category == k)).length := by
  have := lookupCount_foldl catalog [] k
  simpa [categoryCounts, lookupCount] using this

/-- Pointwise sum of two functions over a mapped list. -/
theorem sum_map_add {α : Type} (f g : α → Nat) (l : List α) :
    (l.map (fun x => f x + g x)).sum = (l.map f).sum + (l.map g).sum := by
  induction l with
  | nil => rfl
  | cons a l ih => simp [List.map_cons, ih]; omega

/-- If `k` is not among the keys, the indicator sum over the mapping is 0. -/
theorem sum_indicator_notMem (labels : Labels) (k : String)
    (h : ¬ k ∈ labels.map Prod.fst) :
    (labels.map (fun p => if p.1 = k then 1 else 0)).sum = 0 := by
  induction labels with
  | nil => rfl
  | cons p labels ih =>
      simp only [List.map_cons, List.mem_cons] at h ⊢
      have h1 : ¬ p.1 = k := fun hk => h (Or.inl hk.symm)
      simp [h1, ih (fun hk => h (Or.inr hk))]

/-- For a duplicate-free key list containing `k`, the indicator sum is 1. -/
theorem sum_indicator_one (labels : Labels) (k : String)
    (hnd : (labels.map Prod.fst).Nodup) (hmem : k ∈ labels.map Prod.fst) :
    (labels.map (fun p => if p.1 = k then 1 else 0)).sum = 1 := by
  induction labels with
  | nil => simp at hmem
  | cons p labels ih =>
      simp only [List.map_cons, List.nodup_cons] at hnd
      rcases List.mem_cons.1 hmem with h | h
      · have hk : ¬ k ∈ labels.map Prod.fst := by
          rw [h]; exact hnd.1
        simp [h.symm, sum_indicator_notMem labels k hk]
      · have h1 : ¬ p.1 = k := fun hk => hnd.1 (by rw [hk]; exact h)
        simp [h1, ih hnd.2 h]

/-- With duplicate-free keys covering every agent's primary category, the
per-key primary-category counts sum to the catalog size. -/
theorem primary_counts_sum (labels : Labels) (catalog : List Agent)
    (hnd : (labels.map Prod.fst).Nodup)
    (hcov : ∀ a ∈ catalog, a.primary_category ∈ labels.map Prod.fst) :
    (labels.map (fun p =>
        (catalog.filter (fun a => a.primary_category == p.1)).length)).sum
      = catalog.length := by
  induction catalog with
  | nil => simp
  | cons a catalog ih =>
      have hcov' : ∀ b ∈ catalog, b.primary_category ∈ labels.map Prod.fst :=
        fun b hb => hcov b (List.mem_cons_of_mem a hb)
      have hsplit :
          (labels.map (fun p =>
              ((a :: catalog).filter
                (fun x => x.primary_category == p.1)).length)).sum
            = (labels.map (fun p =>
                (catalog.filter
                  (fun x => x.primary_category == p.1)).length)).sum
              + (labels.map (fun p =>
                  if a.primary_category = p.1 then 1 else 0)).sum := by
        rw [← sum_map_add]
        refine congrArg List.sum (List.map_congr_left (fun p _ => ?_))
        by_cases h : a.primary_category = p.1 <;>
          simp [List.filter_cons, h]
      rw [hsplit, ih hcov']
      have hone : (labels.map (fun p =>
          if a.primary_category = p.1 then 1 else 0)).sum = 1 := by
        simpa [eq_comm] using sum_indicator_one labels a.primary_category hnd
          (hcov a (List.mem_cons_self a catalog))
      rw [hone, List.length_cons]

/-- C5: the category listing has exactly one `(key, label, count)` entry
per entry of the category-label mapping, in mapping iteration order
(keys with count 0 included), each count being the number of agents whose
`primary_category` equals the key; given unique keys covering every
agent's primary category, the counts sum to the catalog size. -/
theorem listCategories_spec (labels : Labels) (catalog : List Agent)
    (hnd : (labels.map Prod.fst).Nodup)
    (hcov : ∀ a ∈ catalog, a.primary_category ∈ labels.map Prod.fst) :
    listCategories labels catalog
      = labels.map (fun p =>
          (p.1, p.2,
            (catalog.filter (fun a => a.primary_category == p.1)).length))
    ∧ ((listCategories labels catalog).map (fun e => e.2.2)).sum
        = catalog.length := by
  have hlist : listCategories labels catalog
      = labels.map (fun p =>
          (p.1, p.2,
            (catalog.filter (fun a => a.primary_category == p.1)).length)) := by
    unfold listCategories
    exact List.map_congr_left (fun p _ => by rw [categoryCounts_lookup])
  refine ⟨hlist, ?_⟩
  rw [hlist, List.map_map]
  simpa [Function.comp] using primary_counts_sum labels catalog hnd hcov

/-- The resolution loop splits the input slugs into the resolved agents
(in input order) and the unresolved slugs (in input order). -/
theorem resolveSlugs_eq (catalog : List Agent) (slugs : List String) :
    resolveSlugs catalog slugs
      = (slugs.filterMap (fun s => catalog.find? (fun a => a.slug == s)),
         slugs.filter
           (fun s => (catalog.find? (fun a => a.slug == s)).isNone)) := by
  have go : ∀ (rest : List String) (A : List Agent) (B : List String),
      rest.foldl
        (fun acc slug =>
          match catalog.find? (fun a => a.slug == slug) with
          | some agent => (acc.1 ++ [agent], acc.2)
          | none => (acc.1, acc.2 ++ [slug])) (A, B)
      = (A ++ rest.filterMap (fun s => catalog.find? (fun a => a.slug == s)),
         B ++ rest.filter
           (fun s => (catalog.find? (fun a => a.slug == s)).isNone)) := by
    intro rest
    induction rest with
    | nil => intro A B; simp
    | cons s rest ih =>
        intro A B
        cases hf : catalog.find? (fun a => a.slug == s) with
        | some a =>
            simp [List.foldl_cons, hf, ih, List.filterMap_cons,
              List.filter_cons]
        | none =>
            simp [List.foldl_cons, hf, ih, List.filterMap_cons,
              List.filter_cons]
  simpa [resolveSlugs] using go slugs [] []

/-- Splitting a list by whether `f` returns a value conserves length. -/
theorem filterMap_filter_isNone_length {α β : Type} (f : α → Option β)
    (l : List α) :
    (l.filterMap f).length + (l.filter (fun x => (f x).isNone)).length
      = l.length := by
  induction l with
  | nil => rfl
  | cons a l ih =>
      cases hf : f a <;>
        simp [List.filterMap_cons, List.filter_cons, hf] <;>
        omega

/-- Every input slug lands in exactly one of the two lists. -/
theorem resolveSlugs_length (catalog : List Agent) (slugs : List String) :
    (resolveSlugs catalog slugs).1.length
      + (resolveSlugs catalog slugs).2.length = slugs.length := by
  rw [resolveSlugs_eq]
  exact filterMap_filter_isNone_length _ _

/-- A slug fails to resolve exactly when no catalog agent has that slug. -/
theorem find_isNone_iff_unresolvable (catalog : List Agent) (s : String) :
    (catalog.find? (fun a => a.slug == s)).isNone
      = decide (∀ a ∈ catalog, ¬ a.slug = s) := by
  by_cases h : ∀ a ∈ catalog, ¬ a.slug = s
  · have hn : catalog.find? (fun a => a.slug == s) = none :=
      List.find?_eq_none.mpr (fun a ha => by simpa using h a ha)
    rw [hn]
    exact (decide_eq_true h).symm
  · cases hopt : catalog.find? (fun a => a.slug == s) with
    | none =>
        exfalso
        apply h
        intro a ha
        simpa using List.find?_eq_none.mp hopt a ha
    | some a0 =>
        simp only [Option.isNone_some]
        exact (decide_eq_false h).symm

/-- C3: whenever at least one of the 2–5 input slugs has no exact catalog
match, compare returns the unresolved-slugs message listing exactly the
slugs with no exact match (in input order), and produces no comparison
output at all. -/
theorem compare_unresolved (catalog : List Agent) (slugs : List String)
    (_h2 : 2 ≤ slugs.length) (_h5 : slugs.length ≤ 5)
    (hmiss : ∃ s ∈ slugs, ∀ a ∈ catalog, ¬ a.slug = s) :
    yagooCompare catalog slugs
      = CompareResult.notFound
          (slugs.filter (fun s => decide (∀ a ∈ catalog, ¬ a.slug = s)))
    ∧ ∀ agents, yagooCompare catalog slugs
        ≠ CompareResult.comparison agents := by
  have hfilter : (resolveSlugs catalog slugs).2
      = slugs.filter (fun s => decide (∀ a ∈ catalog, ¬ a.slug = s)) := by
    rw [resolveSlugs_eq]
    exact List.filter_congr
      (fun s _ => find_isNone_iff_unresolvable catalog s)
  have hne : ¬ (resolveSlugs catalog slugs).2.isEmpty = true := by
    rw [List.isEmpty_iff, hfilter]
    obtain ⟨s, hs, hm⟩ := hmiss
    intro hempty
    have hmem : s ∈ slugs.filter
        (fun s => decide (∀ a ∈ catalog, ¬ a.slug = s)) :=
      List.mem_filter.mpr ⟨hs, by simpa using hm⟩
    rw [hempty] at hmem
    simp at hmem
  constructor
  · simp only [yagooCompare]
    rw [if_neg hne, hfilter]
  · intro agents
    simp only [yagooCompare]
    rw [if_neg hne]
    simp

/-- C10: with at least two input slugs (the externally validated lower
bound), the "Need at least 2 valid agents" branch of the compare handler
is unreachable: each slug is appended to exactly one of the two lists and
the unresolved branch returns first, so at the minimum-count check the
resolved list is as long as the input. -/
theorem compare_needTwo_unreachable (catalog : List Agent)
    (slugs : List String) (h2 : 2 ≤ slugs.length) :
    yagooCompare catalog slugs ≠ CompareResult.needTwo := by
  simp only [yagooCompare]
  by_cases hB : (resolveSlugs catalog slugs).2.isEmpty = true
  · have hB' : (resolveSlugs catalog slugs).2 = [] := List.isEmpty_iff.mp hB
    have hlen := resolveSlugs_length catalog slugs
    rw [hB'] at hlen
    simp only [List.length_nil, Nat.add_zero] at hlen
    have h1 : ¬ (resolveSlugs catalog slugs).1.length < 2 := by omega
    rw [if_pos hB, if_neg h1]
    simp
  · rw [if_neg hB]
    simp

/-- What "the first agent in input order satisfying `p`, omitted when
none qualifies" means for an optional pick. -/
def firstPick (p : Agent → Bool) (agents : List Agent)
    (pick : Option Agent) : Prop :=
  (pick = none ↔ ∀ a ∈ agents, ¬ p a)
  ∧ ∀ a, pick = some a →
      p a ∧ ∃ l₁ l₂, agents = l₁ ++ a :: l₂ ∧ ∀ b ∈ l₁, ¬ p b

/-- `find?` returns the first element satisfying the predicate: it splits
the list into a non-qualifying prefix and the found element. -/
theorem find?_some_split {α : Type} (p : α → Bool) (l : List α) (b : α)
    (h : l.find? p = some b) :
    p b = true ∧ ∃ l₁ l₂, l = l₁ ++ b :: l₂ ∧ ∀ x ∈ l₁, ¬ p x := by
  induction l with
  | nil => simp at h
  | cons a l ih =>
      by_cases ha : p a
      · rw [List.find?_cons_of_pos _ ha] at h
        obtain rfl : a = b := Option.some.inj h
        exact ⟨ha, [], l, rfl, by simp⟩
      · rw [List.find?_cons_of_neg _ (by simpa using ha)] at h
        obtain ⟨hb, l₁, l₂, rfl, hl₁⟩ := ih h
        refine ⟨hb, a :: l₁, l₂, rfl, ?_⟩
        intro x hx
        rcases List.mem_cons.1 hx with rfl | hx
        · simpa using ha
        · exact hl₁ x hx

/-- `agents.find? p` is the first qualifying agent, absent exactly when
none qualifies. -/
theorem find?_firstPick (p : Agent → Bool) (agents : List Agent) :
    firstPick p agents (agents.find? p) := by
  constructor
  · constructor
    · intro h a ha
      have := List.find?_eq_none.mp h a ha
      simpa using this
    · intro h
      exact List.find?_eq_none.mpr (fun a ha => by simpa using h a ha)
  · intro a h
    obtain ⟨hpa, l₁, l₂, heq, hl₁⟩ := find?_some_split p agents a h
    exact ⟨hpa, l₁, l₂, heq, fun b hb => by simpa using hl₁ b hb⟩

/-- When every slug resolves, the resolved agents match the input slugs
elementwise, in input order. -/
theorem resolved_in_input_order (catalog : List Agent) (slugs : List String)
    (hall : ∀ s ∈ slugs, ¬ catalog.find? (fun a => a.slug == s) = none) :
    List.Forall₂ (fun (a : Agent) (s : String) => a.slug = s)
      (slugs.filterMap (fun s => catalog.find? (fun a => a.slug == s)))
      slugs := by
  induction slugs with
  | nil => simp
  | cons s rest ih =>
      cases hf : catalog.find? (fun a => a.slug == s) with
      | none => exact absurd hf (hall s (List.mem_cons_self _ _))
      | some a =>
          have hcons : (s :: rest).filterMap
              (fun s => catalog.find? (fun a => a.slug == s))
            = a :: rest.filterMap
                (fun s => catalog.find? (fun a => a.slug == s)) := by
            simp [List.filterMap_cons, hf]
          rw [hcons]
          refine List.Forall₂.cons ?_
            (ih (fun s' hs' => hall s' (List.mem_cons_of_mem _ hs')))
          simpa using List.find?_some hf

/-- C7: on a fully resolved compare call the resolved agents correspond
to the input slugs in input order, and each of the three
quick-recommendation picks is the first agent in input order satisfying
its predicate (budget pricing model free / open_source / freemium; fully
autonomous autonomy level; MCP support), each omitted exactly when no
input agent qualifies. -/
theorem compare_quickRecs (catalog : List Agent) (slugs : List String)
    (agents : List Agent)
    (h : yagooCompare catalog slugs = CompareResult.comparison agents) :
    List.Forall₂ (fun (a : Agent) (s : String) => a.slug = s) agents slugs
    ∧ firstPick budgetQual agents (quickRecommendations agents).1
    ∧ firstPick autonomousQual agents (quickRecommendations agents).2.1
    ∧ firstPick (fun a => a.mcp_support) agents
        (quickRecommendations agents).2.2 := by
  simp only [yagooCompare] at h
  by_cases hB : (resolveSlugs catalog slugs).2.isEmpty = true
  · rw [if_pos hB] at h
    by_cases hlen : (resolveSlugs catalog slugs).1.length < 2
    · rw [if_pos hlen] at h
      exact absurd h (by simp)
    · rw [if_neg hlen] at h
      have hagents : (resolveSlugs catalog slugs).1 = agents :=
        CompareResult.comparison.inj h
      have hB' : (resolveSlugs catalog slugs).2 = [] := List.isEmpty_iff.mp hB
      rw [resolveSlugs_eq] at hagents hB'
      have hagents2 : slugs.filterMap
          (fun s => catalog.find? (fun a => a.slug == s)) = agents := hagents
      have hB2 : slugs.filter
          (fun s => (catalog.find? (fun a => a.slug == s)).isNone) = [] := hB'
      have hall : ∀ s ∈ slugs, ¬ catalog.find? (fun a => a.slug == s) = none := by
        intro s hs hnone
        have hmem : s ∈ slugs.filter
            (fun s => (catalog.find? (fun a => a.slug == s)).isNone) :=
          List.mem_filter.mpr ⟨hs, by simp [hnone]⟩
        rw [hB2] at hmem
        simp at hmem
      refine ⟨?_, ?_, ?_, ?_⟩
      · rw [← hagents2]
        exact resolved_in_input_order catalog slugs hall
      · exact find?_firstPick budgetQual agents
      · exact find?_firstPick autonomousQual agents
      · exact find?_firstPick (fun a => a.mcp_support) agents
  · rw [if_neg hB] at h
    exact absurd h (by simp)

/-- C6: `yagoo_get_agent` resolves a slug by exact match only — a found
result is a catalog agent whose slug equals the query, and whenever some
catalog agent has the query slug the result is a found profile; on a miss
the result is the not-found message (a plain value, never an exception)
whose suggestions are the slugs of the first three agents in catalog
iteration order whose slug contains the query slug or whose name
contains it case-insensitively. -/
theorem getAgent_spec (catalog : List Agent) (slug : String) :
    (∀ a, yagooGetAgent catalog slug = GetAgentResult.found a →
        a ∈ catalog ∧ a.slug = slug)
    ∧ ((∃ a ∈ catalog, a.slug = slug) →
        ∃ a, yagooGetAgent catalog slug = GetAgentResult.found a)
    ∧ ((∀ a ∈ catalog, ¬ a.slug = slug) →
        yagooGetAgent catalog slug
          = GetAgentResult.notFound
              (((catalog.filter (suggestionMatches slug)).take 3).map
                (fun a => a.slug))
        ∧ ∀ suggestions,
            yagooGetAgent catalog slug = GetAgentResult.notFound suggestions →
              suggestions.length ≤ 3
              ∧ ∀ s ∈ suggestions, ∃ a ∈ catalog,
                  suggestionMatches slug a ∧ a.slug = s) := by
  refine ⟨?_, ?_, ?_⟩
  · intro a ha
    unfold yagooGetAgent at ha
    cases hf : catalog.find? (fun a => a.slug == slug) with
    | none => rw [hf] at ha; exact absurd ha (by simp)
    | some b =>
        rw [hf] at ha
        have hab : b = a := GetAgentResult.found.inj ha
        subst hab
        exact ⟨List.mem_of_find?_eq_some hf, by simpa using List.find?_some hf⟩
  · intro ⟨a, ha, hslug⟩
    unfold yagooGetAgent
    cases hf : catalog.find? (fun a => a.slug == slug) with
    | none =>
        exfalso
        have := List.find?_eq_none.mp hf a ha
        simp [hslug] at this
    | some b => exact ⟨b, rfl⟩
  · intro hmiss
    have hf : catalog.find? (fun a => a.slug == slug) = none :=
      List.find?_eq_none.mpr (fun a ha => by simpa using hmiss a ha)
    have hres : yagooGetAgent catalog slug
        = GetAgentResult.notFound
            (((catalog.filter (suggestionMatches slug)).take 3).map
              (fun a => a.slug)) := by
      unfold yagooGetAgent
      rw [hf]
    refine ⟨hres, ?_⟩
    intro suggestions hsug
    rw [hres] at hsug
    have hsug' := (GetAgentResult.notFound.inj hsug).symm
    subst hsug'
    constructor
    · calc (((catalog.filter (suggestionMatches slug)).take 3).map
            (fun a => a.slug)).length
          = ((catalog.filter (suggestionMatches slug)).take 3).length :=
            List.length_map _ _
        _ ≤ 3 := List.length_take_le 3 _
    · intro s hs
      obtain ⟨a, ha, rfl⟩ := List.mem_map.1 hs
      have ha2 : a ∈ catalog.filter (suggestionMatches slug) :=
        List.mem_of_mem_take ha
      have ha3 := List.mem_filter.1 ha2
      exact ⟨a, ha3.1, ha3.2, rfl⟩

/-- C9: for an agent with MCP support and a connection configuration, the
rendered block contains its command and args, and contains an `env` field
exactly when the configuration has one — an absent `env` yields no `env`
field at all — both in the full-profile view and in the MCP listing. -/
theorem mcpConfig_env_spec (catalog : List Agent) (agent : Agent)
    (cfg : McpConfig) (hmem : agent ∈ catalog)
    (hs : agent.mcp_support = true) (hc : agent.mcp_config = some cfg) :
    formatAgentDetailConfig agent = some (mcpConfigJson cfg)
    ∧ (agent, mcpConfigJson cfg) ∈ listMcpBlocks catalog
    ∧ ("command", JsonVal.str cfg.command) ∈ mcpConfigJson cfg
    ∧ ("args", JsonVal.arr cfg.args) ∈ mcpConfigJson cfg
    ∧ ((∃ e, ("env", JsonVal.obj e) ∈ mcpConfigJson cfg) ↔ cfg.env.isSome)
    ∧ (cfg.env = none → ∀ v, ¬ ("env", v) ∈ mcpConfigJson cfg)
    ∧ (∀ e, cfg.env = some e → ("env", JsonVal.obj e) ∈ mcpConfigJson cfg) := by
  refine ⟨?_, ?_, ?_, ?_, ?_, ?_, ?_⟩
  · unfold formatAgentDetailConfig
    rw [hs, hc]
    simp
  · unfold listMcpBlocks
    exact List.mem_filterMap.mpr ⟨agent, hmem, by rw [hs, hc]⟩
  · unfold mcpConfigJson
    simp
  · unfold mcpConfigJson
    simp
  · unfold mcpConfigJson
    cases he : cfg.env <;> simp
  · intro he v
    unfold mcpConfigJson
    rw [he]
    simp
  · intro e he
    unfold mcpConfigJson
    rw [he]
    simp

/-! ### Concrete demonstration data for witness instances -/

/-- A small concrete MCP configuration (with an `env` mapping). -/
def demoConfig : McpConfig :=
  { command := "npx", args := ["-y", "demo"], env := some [("KEY", "VAL")],
    description := none }

/-- A concrete agent with MCP support, free pricing and full autonomy. -/
def demoAgentA : Agent :=
  { slug := "alpha", name := "Alpha", tagline := "first demo agent",
    description := "demo", url := "https://example.com/a",
    primary_category := "cat_one", secondary_categories := [],
    pricing_model := "free", pricing_details := "free forever",
    autonomy_level := "fully_autonomous", open_source := true,
    repo_url := none, mcp_support := true, mcp_config := some demoConfig,
    tags := ["alpha"], capabilities := ["demo work"], best_for := ["demos"],
    limitations := ["none"], not_ideal_for := [], reliability_notes := "fine",
    access_methods := ["cli"], integrates_with := [] }

/-- A concrete agent without MCP support, paid and supervised. -/
def demoAgentB : Agent :=
  { slug := "beta", name := "Beta", tagline := "second demo agent",
    description := "demo", url := "https://example.com/b",
    primary_category := "cat_one", secondary_categories := ["cat_two"],
    pricing_model := "paid", pricing_details := "monthly",
    autonomy_level := "supervised", open_source := false,
    repo_url := none, mcp_support := false, mcp_config := none,
    tags := ["beta"], capabilities := [], best_for := [], limitations := [],
    not_ideal_for := [], reliability_notes := "fine", access_methods := [],
    integrates_with := [] }

/-- A two-agent demonstration catalog. -/
def demoCatalog : List Agent := [demoAgentA, demoAgentB]

/-- A two-entry demonstration category-label mapping. -/
def demoLabels : Labels := [("cat_one", "Category One"), ("cat_two", "Category Two")]

/-- Witness for C3: a compare call with one valid and one unknown slug
reports exactly the unknown slug and produces no comparison. -/
theorem compare_unresolved_witness :
    yagooCompare demoCatalog ["alpha", "missing"]
      = CompareResult.notFound
          (["alpha", "missing"].filter
            (fun s => decide (∀ a ∈ demoCatalog, ¬ a.slug = s)))
    ∧ ∀ agents, yagooCompare demoCatalog ["alpha", "missing"]
        ≠ CompareResult.comparison agents :=
  compare_unresolved demoCatalog ["alpha", "missing"] (by decide) (by decide)
    ⟨"missing", by decide, by decide⟩

/-- Witness for C5: on the demonstration catalog the listed counts sum to
the catalog size. -/
theorem listCategories_spec_witness :
    ((listCategories demoLabels demoCatalog).map (fun e => e.2.2)).sum
      = demoCatalog.length :=
  (listCategories_spec demoLabels demoCatalog (by decide) (by decide)).2

/-- Witness for C7: a fully resolved compare over the demonstration
catalog yields input-order agents and first-qualifying picks. -/
theorem compare_quickRecs_witness :
    List.Forall₂ (fun (a : Agent) (s : String) => a.slug = s)
      [demoAgentA, demoAgentB] ["alpha", "beta"]
    ∧ firstPick budgetQual [demoAgentA, demoAgentB]
        (quickRecommendations [demoAgentA, demoAgentB]).1
    ∧ firstPick autonomousQual [demoAgentA, demoAgentB]
        (quickRecommendations [demoAgentA, demoAgentB]).2.1
    ∧ firstPick (fun a => a.mcp_support) [demoAgentA, demoAgentB]
        (quickRecommendations [demoAgentA, demoAgentB]).2.2 :=
  compare_quickRecs demoCatalog ["alpha", "beta"] [demoAgentA, demoAgentB]
    (by decide)

/-- Witness for C9: the demonstration agent's rendered configuration
block carries command, args and the present `env` field. -/
theorem mcpConfig_env_spec_witness :
    formatAgentDetailConfig demoAgentA = some (mcpConfigJson demoConfig)
    ∧ (demoAgentA, mcpConfigJson demoConfig) ∈ listMcpBlocks demoCatalog
    ∧ ("command", JsonVal.str demoConfig.command) ∈ mcpConfigJson demoConfig
    ∧ ("args", JsonVal.arr demoConfig.args) ∈ mcpConfigJson demoConfig
    ∧ ((∃ e, ("env", JsonVal.obj e) ∈ mcpConfigJson demoConfig)
        ↔ demoConfig.env.isSome)
    ∧ (demoConfig.env = none → ∀ v, ¬ ("env", v) ∈ mcpConfigJson demoConfig)
    ∧ (∀ e, demoConfig.env = some e →
        ("env", JsonVal.obj e) ∈ mcpConfigJson demoConfig) :=
  mcpConfig_env_spec demoCatalog demoAgentA demoConfig (by decide) rfl rfl

/-- Witness for C10: a two-slug compare on the demonstration catalog does
not hit the minimum-count branch. -/
theorem compare_needTwo_unreachable_witness :
    yagooCompare demoCatalog ["alpha", "beta"] ≠ CompareResult.needTwo :=
  compare_needTwo_unreachable demoCatalog ["alpha", "beta"] (by decide)

end Yagoo
